import Mathlib

/-!
A shallow embedding of the core of `electoral_college.py`: the national
eligibility filter (5% threshold), the Huntington-Hill inter-state elector
apportionment loop, the Sainte-Lague intra-state apportionment loop, and the
national aggregation, together with theorems checking the specification's
claims about them.

Modelling conventions.
* Python dicts are embedded as ordered association lists: Python 3 dicts
  iterate in insertion order, which is what `max(d, key=d.get)` and the dict
  comprehensions in the source observe.
* The source keeps two dicts keyed by the same state names in the same order
  (`voting_turnout[state]['Total']` for weights, `electors[state]` for counts);
  we fuse them into one list of records carrying `name`, `votes` and `count`.
* Python `max(iterable, key=f)` returns the first element attaining the
  maximum (it replaces the running best only on a strictly larger key).
* Priorities are modelled in exact arithmetic as formal fractions `Frac` of
  naturals, compared by cross multiplication, which agrees with the exact
  value of the source's divisions.  For Sainte-Lague the fraction is literally
  `votes / (2n + 1)`; for Huntington-Hill the source divides by a square root,
  so the fraction is the square `votes^2 / (n(n+1))` — squaring is strictly
  monotone on the nonnegative values involved, so every comparison (hence the
  whole loop) is unchanged.  `Frac.blt_iff_toRat` and `priorityReal_lt_iff`
  below prove these order-equivalences against the literal rational and
  square-root formulas.
* A Python run either returns a value or aborts with an uncaught exception;
  fallible stages return `Except RunError`.  `RunError` also has constructors
  for the two error kinds the specification prescribes
  (`DegenerateInputError`, `InvalidApportionmentConfig`); the source never
  raises them, which lets claims about them be stated and settled.
-/

namespace ElectoralCollege

/-- An exact, unreduced fraction of naturals, standing for the nonnegative
real `num / den`.  All priority values of the program are such fractions. -/
structure Frac where
  num : Nat
  den : Nat
  deriving DecidableEq, Repr

/-- Strict comparison of fraction values by cross multiplication; for
positive denominators this is exactly `a.num/a.den < b.num/b.den`. -/
def Frac.blt (a b : Frac) : Bool :=
  a.num * b.den < b.num * a.den

/-- Non-strict comparison of fraction values by cross multiplication; for
positive denominators this is exactly `a.num/a.den ≤ b.num/b.den`. -/
def Frac.ble (a b : Frac) : Bool :=
  a.num * b.den ≤ b.num * a.den

/-- The exact rational value of a fraction. -/
def Frac.toRat (a : Frac) : ℚ :=
  (a.num : ℚ) / (a.den : ℚ)

/-- One entry of a sequential-apportionment mapping: the label (state or
candidate name), its weight (total votes for Huntington-Hill, candidate votes
for Sainte-Lague) and the number of units currently held. -/
structure StRec where
  name : String
  votes : Nat
  count : Nat
  deriving DecidableEq, Repr

/-- The scan inside Python's `max(d, key=d.get)`: keep the running best pair,
replacing it only when a strictly larger value appears, so the first maximal
entry wins ties. -/
def maxSnd (best : String × Frac) : List (String × Frac) → String × Frac
  | [] => best
  | p :: rest => if best.2.blt p.2 then maxSnd p rest else maxSnd best rest

/-- `max(d, key=d.get)` on an association list: the first key attaining the
maximal value; `none` on the empty list (Python raises `ValueError` there). -/
def argmaxKey : List (String × Frac) → Option String
  | [] => none
  | p :: rest => some (maxSnd p rest).1

/-- `d[s] += 1` on the fused record list: bump the count of the first record
named `s` (keys of a Python dict are unique, so "first" is "the" record). -/
def incr : List StRec → String → List StRec
  | [], _ => []
  | r :: rest, s =>
    if r.name = s then { r with count := r.count + 1 } :: rest else r :: incr rest s

/-- Order-faithful model of `priority(votes, n)` from the source:
`votes / math.sqrt(1 * 2)` when `n == 0`, else `votes / math.sqrt(n * (n + 1))`.
Numerator and denominator are squared to avoid the square root; comparisons
are unchanged (`priorityReal_lt_iff`). -/
def priority (votes n : Nat) : Frac :=
  if n = 0 then ⟨votes * votes, 1 * 2⟩ else ⟨votes * votes, n * (n + 1)⟩

/-- The Huntington-Hill priority without the `n == 0` guard, used to state
that the guard branch is dead code in this program (counts start at the floor
1 and only grow). -/
def priorityNoGuard (votes n : Nat) : Frac :=
  ⟨votes * votes, n * (n + 1)⟩

/-- `sl_priority(votes, n) = votes / (2 * n + 1)` from the source, as an
exact fraction. -/
def sl_priority (votes n : Nat) : Frac :=
  ⟨votes, 2 * n + 1⟩

/-- The priority dict comprehension: one `(label, score)` pair per record, in
mapping order. -/
def allocPriorities (score : Nat → Nat → Frac) (l : List StRec) : List (String × Frac) :=
  l.map fun r => (r.name, score r.votes r.count)

/-- One iteration of either apportionment loop: build the priority mapping,
take the argmax, increment its count.  `none` when the mapping is empty. -/
def allocStep (score : Nat → Nat → Frac) (l : List StRec) : Option (List StRec) :=
  (argmaxKey (allocPriorities score l)).map (incr l)

/-- `for _ in range(k): ...` around `allocStep`. -/
def allocLoop (score : Nat → Nat → Frac) : Nat → List StRec → Option (List StRec)
  | 0, l => some l
  | k + 1, l => (allocStep score l).bind (allocLoop score k)

/-- `electors = {state: floor for state in voting_turnout}`, fused with the
per-state total-vote weights. -/
def seedElectors (weights : List (String × Nat)) (flr : Nat) : List StRec :=
  weights.map fun p => { name := p.1, votes := p.2, count := flr }

/-- `remaining_electors = total_electors - sum(electors.values())`, a Python
`int` (possibly negative). -/
def remaining_electors (weights : List (String × Nat)) (flr target : Nat) : Int :=
  (target : Int) - (((seedElectors weights flr).map fun r => (r.count : Int)).sum)

/-- The Inter-State Apportioner: seed every state at the floor, then run the
Huntington-Hill loop `range(remaining_electors)` times (`Int.toNat` encodes
that `range` of a negative number is empty).  `none` only when the loop body
would call `max` on an empty mapping. -/
def hhApportion (weights : List (String × Nat)) (flr target : Nat) : Option (List StRec) :=
  allocLoop priority (remaining_electors weights flr target).toNat (seedElectors weights flr)

/-- The runtime errors the script can raise on the modelled paths
(`zeroDivisionError`, `keyError`, `valueError`, named after Python's
exceptions), plus the two error kinds the specification prescribes
(`degenerateInputError`, `invalidApportionmentConfig`), which the source never
raises — they exist so claims about them can be stated. -/
inductive RunError where
  | zeroDivisionError
  | keyError
  | valueError
  | degenerateInputError
  | invalidApportionmentConfig
  deriving DecidableEq, Repr

/-- The Inter-State Apportioner as a fallible run: Python's `max({})` raises
`ValueError`; every other path returns normally. -/
def hhApportionRun (weights : List (String × Nat)) (flr target : Nat) :
    Except RunError (List StRec) :=
  match hhApportion weights flr target with
  | some res => .ok res
  | none => .error .valueError

/-- `allocation = {cand: 0 for cand in vote_dict if cand in eligible}`:
every eligible candidate of the state starts at zero, in dict order. -/
def slInit (vote_dict : List (String × Nat)) (eligible : List String) : List StRec :=
  (vote_dict.filter fun p => decide (p.1 ∈ eligible)).map
    fun p => ({ name := p.1, votes := p.2, count := 0 } : StRec)

/-- `apportion_within_state(vote_dict, electors, eligible)` from the source:
start each eligible candidate of the state at 0 (in dict order), return `{}`
when no candidate is eligible, else run the Sainte-Lague loop `electors`
times. -/
def apportion_within_state (vote_dict : List (String × Nat)) (electors : Nat)
    (eligible : List String) : Option (List StRec) :=
  if slInit vote_dict eligible = [] then some []
  else allocLoop sl_priority electors (slInit vote_dict eligible)

/-- `Counter[k] += v`: increment an existing key in place, else append the new
key at the end (Python dict/Counter insertion order). -/
def bump (m : List (String × Nat)) (k : String) (v : Nat) : List (String × Nat) :=
  match m with
  | [] => [(k, v)]
  | (k0, v0) :: rest => if k0 = k then (k0, v0 + v) :: rest else (k0, v0) :: bump rest k v

/-- All `(candidate, votes)` pairs of all states whose label is not the
derived `"Total"` field, in iteration order — the pairs the source feeds into
`national_raw_totals`. -/
def nonTotalPairs (turnout : List (String × List (String × Nat))) : List (String × Nat) :=
  turnout.flatMap fun st => st.2.filter fun p => decide (p.1 ≠ "Total")

/-- `national_raw_totals`: a `Counter` accumulating every non-`"Total"` entry
of every state. -/
def national_raw_totals (turnout : List (String × List (String × Nat))) :
    List (String × Nat) :=
  (nonTotalPairs turnout).foldl (fun m p => bump m p.1 p.2) []

/-- `total_votes_national = sum(national_raw_totals.values())`. -/
def total_votes_national (turnout : List (String × List (String × Nat))) : Nat :=
  ((national_raw_totals turnout).map fun p => p.2).sum

/-- The Eligibility Filter: keep the candidates with `votes / total >= 0.05`
(the threshold `0.05` is the fraction `1/20` exactly, and the share test
`1/20 ≤ votes/total` is evaluated by exact cross multiplication).  When the
grand total is zero and at least one candidate exists, the first division in
the set comprehension raises `ZeroDivisionError`; with no candidates at all
the comprehension is empty and returns the empty set without dividing. -/
def eligible_candidates (turnout : List (String × List (String × Nat))) :
    Except RunError (List String) :=
  if national_raw_totals turnout = [] then .ok []
  else if total_votes_national turnout = 0 then .error .zeroDivisionError
  else .ok (((national_raw_totals turnout).filter fun p =>
    Frac.ble ⟨1, 20⟩ ⟨p.2, total_votes_national turnout⟩).map fun p => p.1)

/-- `state_data['Total']`: Python raises `KeyError` when the key is missing. -/
def lookupTotal (d : List (String × Nat)) : Except RunError Nat :=
  match d.lookup "Total" with
  | some v => .ok v
  | none => .error .keyError

/-- The per-state Huntington-Hill weights `voting_turnout[state]['Total']`,
in state order. -/
def weightsOf : List (String × List (String × Nat)) → Except RunError (List (String × Nat))
  | [] => .ok []
  | (s, d) :: rest =>
    match lookupTotal d, weightsOf rest with
    | .ok t, .ok w => .ok ((s, t) :: w)
    | .error e, _ => .error e
    | .ok _, .error e => .error e

/-- The per-state Sainte-Lague pass: for every state, in elector-mapping
order, apportion its electors within the state. -/
def allocationsOf (turnout : List (String × List (String × Nat))) (elig : List String) :
    List StRec → Except RunError (List (String × List StRec))
  | [] => .ok []
  | r :: rest =>
    match turnout.lookup r.name with
    | none => .error .keyError
    | some d =>
      match apportion_within_state d r.count elig, allocationsOf turnout elig rest with
      | some a, .ok others => .ok ((r.name, a) :: others)
      | none, _ => .error .valueError
      | some _, .error e => .error e

/-- The National Aggregator: `national_totals.update(allocation)` for every
state, i.e. a `Counter` over all `(candidate, electors)` pairs. -/
def nationalOf (allocs : List (String × List StRec)) : List (String × Nat) :=
  (allocs.flatMap fun st => st.2.map fun r => (r.name, r.count)).foldl
    (fun m p => bump m p.1 p.2) []

/-- Everything the script computes after the input tallies are fixed. -/
structure RunResult where
  eligible : List String
  electors : List StRec
  allocations : List (String × List StRec)
  national : List (String × Nat)
  deriving DecidableEq, Repr

/-- The whole core pipeline of the script: eligibility filter, Huntington-Hill
inter-state apportionment, Sainte-Lague intra-state apportionment per state,
national aggregation. -/
def runPipeline (turnout : List (String × List (String × Nat))) (tot flr : Nat) :
    Except RunError RunResult :=
  match eligible_candidates turnout with
  | .error e => .error e
  | .ok elig =>
    match weightsOf turnout with
    | .error e => .error e
    | .ok ws =>
      match hhApportion ws flr tot with
      | none => .error .valueError
      | some el =>
        match allocationsOf turnout elig el with
        | .error e => .error e
        | .ok allocs => .ok ⟨elig, el, allocs, nationalOf allocs⟩

/-! ## Order-faithfulness of the fraction comparisons -/

theorem Frac.blt_iff_toRat (a b : Frac) (ha : 0 < a.den) (hb : 0 < b.den) :
    a.blt b = true ↔ a.toRat < b.toRat := by
  unfold Frac.blt Frac.toRat
  rw [decide_eq_true_eq,
    div_lt_div_iff₀ (by exact_mod_cast ha) (by exact_mod_cast hb)]
  exact_mod_cast Iff.rfl

theorem Frac.ble_iff_toRat (a b : Frac) (ha : 0 < a.den) (hb : 0 < b.den) :
    a.ble b = true ↔ a.toRat ≤ b.toRat := by
  unfold Frac.ble Frac.toRat
  rw [decide_eq_true_eq,
    div_le_div_iff₀ (by exact_mod_cast ha) (by exact_mod_cast hb)]
  exact_mod_cast Iff.rfl

/-- The literal Huntington-Hill priority of the source,
`votes / math.sqrt(1 * 2)` when `n == 0` and `votes / math.sqrt(n * (n + 1))`
otherwise, as a real number. -/
noncomputable def priorityReal (votes n : Nat) : ℝ :=
  if n = 0 then (votes : ℝ) / Real.sqrt ((1 * 2 : Nat) : ℝ)
  else (votes : ℝ) / Real.sqrt ((n * (n + 1) : Nat) : ℝ)

theorem div_sqrt_lt_div_sqrt_iff (v1 v2 d1 d2 : Nat) (h1 : 0 < d1) (h2 : 0 < d2) :
    (v1 : ℝ) / Real.sqrt (d1 : ℝ) < (v2 : ℝ) / Real.sqrt (d2 : ℝ) ↔
      v1 * v1 * d2 < v2 * v2 * d1 := by
  have c1 : (0 : ℝ) < (d1 : ℝ) := by exact_mod_cast h1
  have c2 : (0 : ℝ) < (d2 : ℝ) := by exact_mod_cast h2
  have s1 : (0 : ℝ) < Real.sqrt (d1 : ℝ) := Real.sqrt_pos.mpr c1
  have s2 : (0 : ℝ) < Real.sqrt (d2 : ℝ) := Real.sqrt_pos.mpr c2
  rw [div_lt_div_iff₀ s1 s2]
  rw [mul_self_lt_mul_self_iff
    (mul_nonneg (Nat.cast_nonneg v1) s2.le) (mul_nonneg (Nat.cast_nonneg v2) s1.le)]
  have e1 : Real.sqrt (d1 : ℝ) * Real.sqrt (d1 : ℝ) = (d1 : ℝ) := Real.mul_self_sqrt c1.le
  have e2 : Real.sqrt (d2 : ℝ) * Real.sqrt (d2 : ℝ) = (d2 : ℝ) := Real.mul_self_sqrt c2.le
  rw [show ((v1 : ℝ) * Real.sqrt d2) * ((v1 : ℝ) * Real.sqrt d2)
      = (v1 : ℝ) * v1 * (Real.sqrt d2 * Real.sqrt d2) by ring,
    show ((v2 : ℝ) * Real.sqrt d1) * ((v2 : ℝ) * Real.sqrt d1)
      = (v2 : ℝ) * v2 * (Real.sqrt d1 * Real.sqrt d1) by ring, e1, e2]
  exact_mod_cast Iff.rfl

/-- The squared-fraction model of the Huntington-Hill priority compares
exactly like the source's square-root formula: the embedding decides each
`max` with the same outcome the exact real arithmetic would. -/
theorem priorityReal_lt_iff (v1 n1 v2 n2 : Nat) :
    priorityReal v1 n1 < priorityReal v2 n2 ↔
      (priority v1 n1).blt (priority v2 n2) = true := by
  have hpos : ∀ n : Nat, n ≠ 0 → 0 < n * (n + 1) :=
    fun n hn => Nat.mul_pos (Nat.pos_of_ne_zero hn) (Nat.succ_pos n)
  have main : ∀ d1 d2 : Nat, 0 < d1 → 0 < d2 →
      ((v1 : ℝ) / Real.sqrt (d1 : ℝ) < (v2 : ℝ) / Real.sqrt (d2 : ℝ) ↔
        Frac.blt ⟨v1 * v1, d1⟩ ⟨v2 * v2, d2⟩ = true) := by
    intro d1 d2 hd1 hd2
    rw [div_sqrt_lt_div_sqrt_iff v1 v2 d1 d2 hd1 hd2]
    unfold Frac.blt
    rw [decide_eq_true_eq]
  unfold priorityReal priority
  by_cases h1 : n1 = 0 <;> by_cases h2 : n2 = 0
  · rw [if_pos h1, if_pos h2, if_pos h1, if_pos h2]
    exact main (1 * 2) (1 * 2) (by decide) (by decide)
  · rw [if_pos h1, if_neg h2, if_pos h1, if_neg h2]
    exact main (1 * 2) (n2 * (n2 + 1)) (by decide) (hpos n2 h2)
  · rw [if_neg h1, if_pos h2, if_neg h1, if_pos h2]
    exact main (n1 * (n1 + 1)) (1 * 2) (hpos n1 h1) (by decide)
  · rw [if_neg h1, if_neg h2, if_neg h1, if_neg h2]
    exact main (n1 * (n1 + 1)) (n2 * (n2 + 1)) (hpos n1 h1) (hpos n2 h2)

/-- The Sainte-Lague fraction has exactly the rational value the source
computes. -/
theorem sl_priority_toRat (v n : Nat) :
    (sl_priority v n).toRat = (v : ℚ) / (2 * n + 1) := by
  unfold sl_priority Frac.toRat
  push_cast
  rfl

/-- For counts at or above the floor 1 the Huntington-Hill fraction is the
square of the source's priority value `votes / sqrt(n * (n + 1))`. -/
theorem priority_toRat (v n : Nat) (h : n ≠ 0) :
    (priority v n).toRat = (v : ℚ) * v / (n * (n + 1)) := by
  unfold priority Frac.toRat
  rw [if_neg h]
  push_cast
  rfl

/-! ## The argmax of a priority mapping -/

theorem maxSnd_mem (l : List (String × Frac)) (b : String × Frac) :
    maxSnd b l ∈ b :: l := by
  induction l generalizing b with
  | nil => simp [maxSnd]
  | cons q rest ih =>
    rw [maxSnd]
    by_cases h : b.2.blt q.2 = true
    · rw [if_pos h]
      exact List.mem_cons_of_mem _ (ih q)
    · rw [if_neg h]
      rcases List.mem_cons.mp (ih b) with h1 | h1
      · rw [h1]
        exact List.mem_cons_self _ _
      · exact List.mem_cons_of_mem _ (List.mem_cons_of_mem _ h1)

theorem maxSnd_ge (l : List (String × Frac)) (b : String × Frac)
    (hden : ∀ p ∈ b :: l, 0 < p.2.den) :
    ∀ p ∈ b :: l, p.2.toRat ≤ (maxSnd b l).2.toRat := by
  induction l generalizing b with
  | nil =>
    intro p hp
    rcases List.mem_cons.mp hp with rfl | h1
    · simp [maxSnd]
    · simp at h1
  | cons q rest ih =>
    have hb : 0 < b.2.den := hden b (List.mem_cons_self _ _)
    have hq : 0 < q.2.den := hden q (List.mem_cons_of_mem _ (List.mem_cons_self _ _))
    intro p hp
    rw [maxSnd]
    by_cases h : b.2.blt q.2 = true
    · rw [if_pos h]
      have hlt : b.2.toRat < q.2.toRat := (Frac.blt_iff_toRat _ _ hb hq).mp h
      have hq' : ∀ x ∈ q :: rest, 0 < x.2.den := by
        intro x hx
        rcases List.mem_cons.mp hx with rfl | hx1
        · exact hq
        · exact hden x (List.mem_cons_of_mem _ (List.mem_cons_of_mem _ hx1))
      have hqle := ih q hq' q (List.mem_cons_self _ _)
      rcases List.mem_cons.mp hp with rfl | hp1
      · exact le_trans hlt.le hqle
      · rcases List.mem_cons.mp hp1 with rfl | hp2
        · exact hqle
        · exact ih q hq' p (List.mem_cons_of_mem _ hp2)
    · rw [if_neg h]
      have hle : q.2.toRat ≤ b.2.toRat := by
        have := (Frac.blt_iff_toRat b.2 q.2 hb hq).not.mp (by simpa using h)
        exact le_of_not_lt this
      have hb' : ∀ x ∈ b :: rest, 0 < x.2.den := by
        intro x hx
        rcases List.mem_cons.mp hx with rfl | hx1
        · exact hb
        · exact hden x (List.mem_cons_of_mem _ (List.mem_cons_of_mem _ hx1))
      have hble := ih b hb' b (List.mem_cons_self _ _)
      rcases List.mem_cons.mp hp with rfl | hp1
      · exact hble
      · rcases List.mem_cons.mp hp1 with rfl | hp2
        · exact le_trans hle hble
        · exact ih b hb' p (List.mem_cons_of_mem _ hp2)

/-- On a nonempty mapping with positive denominators, `argmaxKey` returns a
pair of the mapping whose value dominates every value of the mapping. -/
theorem argmaxKey_spec (L : List (String × Frac)) (hL : L ≠ [])
    (hden : ∀ p ∈ L, 0 < p.2.den) :
    ∃ m : String × Frac, argmaxKey L = some m.1 ∧ m ∈ L ∧
      ∀ p ∈ L, p.2.toRat ≤ m.2.toRat := by
  match L with
  | [] => exact absurd rfl hL
  | p :: rest =>
    exact ⟨maxSnd p rest, rfl, maxSnd_mem rest p, maxSnd_ge rest p hden⟩

theorem argmaxKey_isSome (L : List (String × Frac)) (hL : L ≠ []) :
    ∃ s, argmaxKey L = some s := by
  match L with
  | [] => exact absurd rfl hL
  | p :: rest => exact ⟨(maxSnd p rest).1, rfl⟩

/-! ## The increment step -/

theorem incr_map_name (l : List StRec) (s : String) :
    (incr l s).map (fun r => r.name) = l.map (fun r => r.name) := by
  induction l with
  | nil => rfl
  | cons r rest ih =>
    rw [incr]
    by_cases h : r.name = s
    · rw [if_pos h]
      simp
    · rw [if_neg h]
      simp [ih]

theorem incr_map_nv (l : List StRec) (s : String) :
    (incr l s).map (fun r => (r.name, r.votes)) = l.map (fun r => (r.name, r.votes)) := by
  induction l with
  | nil => rfl
  | cons r rest ih =>
    rw [incr]
    by_cases h : r.name = s
    · rw [if_pos h]
      simp
    · rw [if_neg h]
      simp [ih]

theorem incr_count_sum (l : List StRec) (s : String)
    (h : s ∈ l.map fun r => r.name) :
    ((incr l s).map fun r => r.count).sum = ((l.map fun r => r.count).sum) + 1 := by
  induction l with
  | nil => simp at h
  | cons r rest ih =>
    rw [incr]
    by_cases hn : r.name = s
    · rw [if_pos hn]
      simp only [List.map_cons, List.sum_cons]
      omega
    · rw [if_neg hn]
      have h2 : s ∈ rest.map fun r => r.name := by
        rcases List.mem_cons.mp h with h3 | h3
        · exact absurd h3.symm hn
        · exact h3
      simp only [List.map_cons, List.sum_cons, ih h2]
      omega

theorem incr_count_le (l : List StRec) (s : String) (c : Nat)
    (h : ∀ r ∈ l, c ≤ r.count) :
    ∀ r ∈ incr l s, c ≤ r.count := by
  induction l with
  | nil => simp [incr]
  | cons r rest ih =>
    intro r2 hr2
    rw [incr] at hr2
    by_cases hn : r.name = s
    · rw [if_pos hn] at hr2
      rcases List.mem_cons.mp hr2 with rfl | h2
      · have := h r (List.mem_cons_self _ _)
        simp only []
        omega
      · exact h r2 (List.mem_cons_of_mem _ h2)
    · rw [if_neg hn] at hr2
      rcases List.mem_cons.mp hr2 with rfl | h2
      · exact h r2 (List.mem_cons_self _ _)
      · exact ih (fun x hx => h x (List.mem_cons_of_mem _ hx)) r2 h2

theorem incr_mem_nv (l : List StRec) (s : String) (r : StRec) (h : r ∈ l) :
    ∃ r2 ∈ incr l s, r2.name = r.name ∧ r2.votes = r.votes := by
  have h1 : (r.name, r.votes) ∈ l.map fun t => (t.name, t.votes) :=
    List.mem_map_of_mem _ h
  rw [← incr_map_nv l s] at h1
  rcases List.mem_map.mp h1 with ⟨r2, hr2, heq⟩
  exact ⟨r2, hr2, (Prod.mk.injEq _ _ _ _).mp heq |>.1, (Prod.mk.injEq _ _ _ _).mp heq |>.2⟩

theorem incr_zero_frozen : ∀ (l : List StRec) (s : String) (c : Nat),
    (∀ r ∈ l, r.name = s → 0 < r.votes) →
    (∀ r ∈ l, r.votes = 0 → r.count = c) →
    ∀ r ∈ incr l s, r.votes = 0 → r.count = c := by
  intro l s c
  induction l with
  | nil => intro _ _ r hr; simp [incr] at hr
  | cons r rest ih =>
    intro hs h r2 hr2 hv
    rw [incr] at hr2
    by_cases hn : r.name = s
    · rw [if_pos hn] at hr2
      rcases List.mem_cons.mp hr2 with rfl | h2
      · exact absurd (hs r (List.mem_cons_self _ _) hn) (by simp at hv; omega)
      · exact h r2 (List.mem_cons_of_mem _ h2) hv
    · rw [if_neg hn] at hr2
      rcases List.mem_cons.mp hr2 with rfl | h2
      · exact h r2 (List.mem_cons_self _ _) hv
      · exact ih (fun x hx => hs x (List.mem_cons_of_mem _ hx))
          (fun x hx => h x (List.mem_cons_of_mem _ hx)) r2 h2 hv

/-! ## The allocation loop -/

theorem argmaxKey_mem (L : List (String × Frac)) (s : String)
    (h : argmaxKey L = some s) : s ∈ L.map Prod.fst := by
  match L with
  | [] => simp [argmaxKey] at h
  | p :: rest =>
    have hm := maxSnd_mem rest p
    rw [argmaxKey, Option.some.injEq] at h
    rw [← h]
    exact List.mem_map_of_mem _ hm

theorem allocPriorities_fst (score : Nat → Nat → Frac) (l : List StRec) :
    (allocPriorities score l).map Prod.fst = l.map fun r => r.name := by
  simp [allocPriorities]

theorem allocPriorities_ne_nil (score : Nat → Nat → Frac) (l : List StRec)
    (hl : l ≠ []) : allocPriorities score l ≠ [] := by
  simpa [allocPriorities] using hl

theorem allocStep_mem (score : Nat → Nat → Frac) (l : List StRec) (hl : l ≠ []) :
    ∃ s, argmaxKey (allocPriorities score l) = some s ∧
      allocStep score l = some (incr l s) ∧ (s ∈ l.map fun r => r.name) := by
  rcases argmaxKey_isSome _ (allocPriorities_ne_nil score l hl) with ⟨s, hs⟩
  refine ⟨s, hs, by simp [allocStep, hs], ?_⟩
  have := argmaxKey_mem _ _ hs
  rwa [allocPriorities_fst] at this

theorem incr_ne_nil (l : List StRec) (s : String) (hl : l ≠ []) : incr l s ≠ [] := by
  intro hcon
  have h1 := incr_map_name l s
  rw [hcon] at h1
  exact hl (List.map_eq_nil_iff.mp h1.symm)

/-- Master lemma for both apportionment loops: on any nonempty mapping, `k`
iterations succeed, leave every label and weight in place, and add exactly
`k` to the total of the counts (each iteration increments exactly one
present key by one). -/
theorem allocLoop_basic (score : Nat → Nat → Frac) :
    ∀ (k : Nat) (l : List StRec), l ≠ [] →
    ∃ res, allocLoop score k l = some res ∧
      (res.map fun r => (r.name, r.votes)) = (l.map fun r => (r.name, r.votes)) ∧
      ((res.map fun r => r.count).sum = (l.map fun r => r.count).sum + k) := by
  intro k
  induction k with
  | zero => intro l _; exact ⟨l, rfl, rfl, by simp⟩
  | succ k ih =>
    intro l hl
    rcases allocStep_mem score l hl with ⟨s, _, hstep, hsname⟩
    rcases ih (incr l s) (incr_ne_nil l s hl) with ⟨res, hres, hnv, hsum⟩
    refine ⟨res, ?_, ?_, ?_⟩
    · rw [allocLoop, hstep]
      simpa using hres
    · rw [hnv, incr_map_nv]
    · rw [hsum, incr_count_sum l s hsname]
      omega

theorem allocLoop_count_le (score : Nat → Nat → Frac) :
    ∀ (k : Nat) (l res : List StRec) (c : Nat),
    allocLoop score k l = some res → (∀ r ∈ l, c ≤ r.count) →
    ∀ r ∈ res, c ≤ r.count := by
  intro k
  induction k with
  | zero =>
    intro l res c h hc
    rw [allocLoop, Option.some.injEq] at h
    exact h ▸ hc
  | succ k ih =>
    intro l res c h hc
    rw [allocLoop] at h
    cases hstep : allocStep score l with
    | none => rw [hstep] at h; simp at h
    | some l2 =>
      rw [hstep] at h
      simp only [Option.bind_some, Option.some_bind] at h
      rcases Option.map_eq_some'.mp hstep with ⟨s, _, hl2⟩
      exact ih l2 res c h (hl2 ▸ incr_count_le l s c hc)

/-- If two score functions agree on all counts at or above 1 and every count
is at least 1, the loops coincide — counts only ever grow, so scores are only
ever evaluated at counts where the functions agree. -/
theorem allocLoop_congr (f g : Nat → Nat → Frac)
    (hfg : ∀ v n, 1 ≤ n → f v n = g v n) :
    ∀ (k : Nat) (l : List StRec), (∀ r ∈ l, 1 ≤ r.count) →
    allocLoop f k l = allocLoop g k l := by
  intro k
  induction k with
  | zero => intro l _; rfl
  | succ k ih =>
    intro l hc
    have hpri : allocPriorities f l = allocPriorities g l := by
      unfold allocPriorities
      exact List.map_congr_left fun r hr => by rw [hfg r.votes r.count (hc r hr)]
    rw [allocLoop, allocLoop, allocStep, allocStep, hpri]
    cases ha : argmaxKey (allocPriorities g l) with
    | none => simp [ha]
    | some s =>
      simp only [ha, Option.map_some', Option.some_bind]
      exact ih (incr l s) (incr_count_le l s 1 hc)

/-- Master lemma for the zero-weight invariant: as long as the key names are
distinct and some record has positive weight, a record with zero weight is
never the argmax (its score is 0 while the maximum is positive), so its count
never moves. -/
theorem allocLoop_zero_frozen (score : Nat → Nat → Frac)
    (hden : ∀ v n, 0 < (score v n).den)
    (hnum : ∀ v n, (score v n).num = 0 ↔ v = 0) :
    ∀ (k : Nat) (l res : List StRec) (c : Nat),
    ((l.map fun r => r.name).Nodup) →
    (∃ r ∈ l, 0 < r.votes) →
    (∀ r ∈ l, r.votes = 0 → r.count = c) →
    allocLoop score k l = some res →
    ∀ r ∈ res, r.votes = 0 → r.count = c := by
  intro k
  induction k with
  | zero =>
    intro l res c _ _ hz h
    rw [allocLoop, Option.some.injEq] at h
    exact h ▸ hz
  | succ k ih =>
    intro l res c hnodup hpos hz h
    rcases hpos with ⟨rp, hrp, hrpv⟩
    have hl : l ≠ [] := List.ne_nil_of_mem hrp
    have hdenL : ∀ p ∈ allocPriorities score l, 0 < p.2.den := by
      intro p hp
      rcases List.mem_map.mp hp with ⟨r, _, rfl⟩
      exact hden r.votes r.count
    rcases argmaxKey_spec _ (allocPriorities_ne_nil score l hl) hdenL with
      ⟨m, hm_eq, hm_mem, hm_max⟩
    have hrp_pos : 0 < (score rp.votes rp.count).toRat := by
      have hd := hden rp.votes rp.count
      have hn : (score rp.votes rp.count).num ≠ 0 := by
        intro hcon
        have := (hnum _ _).mp hcon
        omega
      unfold Frac.toRat
      apply div_pos
      · exact_mod_cast Nat.pos_of_ne_zero hn
      · exact_mod_cast hd
    have hm_pos : 0 < m.2.toRat := by
      have := hm_max (rp.name, score rp.votes rp.count)
        (List.mem_map_of_mem _ hrp)
      exact lt_of_lt_of_le hrp_pos this
    rcases List.mem_map.mp hm_mem with ⟨rm, hrm, hrm_eq⟩
    have hrm_votes : 0 < rm.votes := by
      by_contra h0
      push_neg at h0
      have hv0 : rm.votes = 0 := Nat.le_zero.mp h0
      have hz2 : (score rm.votes rm.count).num = 0 := (hnum _ _).mpr hv0
      have hm2 : m.2 = score rm.votes rm.count := (congrArg Prod.snd hrm_eq).symm
      rw [hm2] at hm_pos
      unfold Frac.toRat at hm_pos
      rw [hz2] at hm_pos
      simp at hm_pos
    have hm1 : rm.name = m.1 := congrArg Prod.fst hrm_eq
    have hname_pos : ∀ r ∈ l, r.name = m.1 → 0 < r.votes := by
      intro r hr hrname
      have heqr : r = rm := by
        apply List.inj_on_of_nodup_map hnodup hr hrm
        rw [hrname, hm1]
      exact heqr ▸ hrm_votes
    have hstep : allocStep score l = some (incr l m.1) := by
      simp [allocStep, hm_eq]
    rw [allocLoop, hstep] at h
    simp only [Option.some_bind] at h
    have hnext_pos : ∃ r ∈ incr l m.1, 0 < r.votes := by
      rcases incr_mem_nv l m.1 rp hrp with ⟨r2, hr2, _, hv2⟩
      exact ⟨r2, hr2, hv2 ▸ hrpv⟩
    exact ih (incr l m.1) res c (by rw [incr_map_name]; exact hnodup) hnext_pos
      (incr_zero_frozen l m.1 c hname_pos hz) h

/-! ## Counter refinement: the folded tallies equal direct sums -/

/-- The national grand total of votes, written directly as the sum of every
non-`"Total"` entry of every state (what the specification calls "the
national grand total"). -/
def grandTotal (turnout : List (String × List (String × Nat))) : Nat :=
  ((nonTotalPairs turnout).map fun p => p.2).sum

/-- A candidate's cross-state vote sum, written directly as the sum of that
candidate's entries over all states (what the specification calls "its
cross-state vote sum"). -/
def crossStateSum (turnout : List (String × List (String × Nat))) (c : String) : Nat :=
  (((nonTotalPairs turnout).filter fun p => decide (p.1 = c)).map fun p => p.2).sum

/-- `Counter[c]`, with Python's "missing key counts as 0" convention. -/
def lookupD (m : List (String × Nat)) (c : String) : Nat :=
  (m.lookup c).getD 0

theorem bump_lookupD (m : List (String × Nat)) (k c : String) (v : Nat) :
    lookupD (bump m k v) c = lookupD m c + (if c = k then v else 0) := by
  induction m with
  | nil =>
    by_cases h : c = k
    · subst h
      simp [bump, lookupD, List.lookup]
    · have hb : (c == k) = false := beq_eq_false_iff_ne.mpr h
      simp [bump, lookupD, List.lookup, hb, h]
  | cons p rest ih =>
    match p with
    | (k0, v0) =>
      rw [bump]
      by_cases hk : k0 = k
      · rw [if_pos hk]
        by_cases hc : c = k0
        · have hck : c = k := hc.trans hk
          have hb : (c == k0) = true := beq_iff_eq.mpr hc
          have hb2 : (k == k0) = true := beq_iff_eq.mpr hk.symm
          simp [lookupD, List.lookup, hb, hb2, hck]
        · have hck : ¬c = k := fun hcon => hc (hcon.trans hk.symm)
          have hb : (c == k0) = false := beq_eq_false_iff_ne.mpr hc
          simp [lookupD, List.lookup, hb, hck]
      · rw [if_neg hk]
        by_cases hc : c = k0
        · have hck : ¬c = k := fun hcon => hk (hc.symm.trans hcon)
          have hb : (c == k0) = true := beq_iff_eq.mpr hc
          simp [lookupD, List.lookup, hb, hck]
        · have hb : (c == k0) = false := beq_eq_false_iff_ne.mpr hc
          simp only [lookupD, List.lookup, hb] at ih ⊢
          exact ih

theorem foldl_bump_lookupD :
    ∀ (ps m : List (String × Nat)) (c : String),
    lookupD (ps.foldl (fun acc p => bump acc p.1 p.2) m) c =
      lookupD m c + ((ps.filter fun p => decide (p.1 = c)).map fun p => p.2).sum := by
  intro ps
  induction ps with
  | nil => intro m c; simp
  | cons p rest ih =>
    intro m c
    rw [List.foldl_cons, ih, bump_lookupD]
    by_cases h : p.1 = c
    · have hd : decide (p.1 = c) = true := decide_eq_true h
      have hcp : c = p.1 := h.symm
      simp [List.filter_cons, hd, hcp]
      omega
    · have hd : decide (p.1 = c) = false := decide_eq_false h
      have hcp : ¬c = p.1 := fun hcon => h hcon.symm
      simp [List.filter_cons, hd, hcp]

theorem bump_mem_fst (m : List (String × Nat)) (k c : String) (v : Nat) :
    c ∈ (bump m k v).map Prod.fst ↔ (c ∈ m.map Prod.fst ∨ c = k) := by
  induction m with
  | nil => simp [bump]
  | cons p rest ih =>
    match p with
    | (k0, v0) =>
      rw [bump]
      by_cases hk : k0 = k
      · rw [if_pos hk]
        subst hk
        simp only [List.map_cons, List.mem_cons]
        constructor
        · intro h
          rcases h with h | h
          · exact Or.inl (Or.inl h)
          · exact Or.inl (Or.inr h)
        · intro h
          rcases h with (h | h) | h
          · exact Or.inl h
          · exact Or.inr h
          · exact Or.inl h
      · rw [if_neg hk]
        simp only [List.map_cons, List.mem_cons, ih]
        tauto

theorem foldl_bump_mem_fst :
    ∀ (ps m : List (String × Nat)) (c : String),
    c ∈ (ps.foldl (fun acc p => bump acc p.1 p.2) m).map Prod.fst ↔
      (c ∈ m.map Prod.fst ∨ c ∈ ps.map Prod.fst) := by
  intro ps
  induction ps with
  | nil => intro m c; simp
  | cons p rest ih =>
    intro m c
    rw [List.foldl_cons, ih, bump_mem_fst]
    simp only [List.map_cons, List.mem_cons]
    tauto

theorem bump_nodup_fst (m : List (String × Nat)) (k : String) (v : Nat)
    (h : (m.map Prod.fst).Nodup) : ((bump m k v).map Prod.fst).Nodup := by
  induction m with
  | nil => simp [bump]
  | cons p rest ih =>
    match p with
    | (k0, v0) =>
      rw [bump]
      by_cases hk : k0 = k
      · rw [if_pos hk]
        exact h
      · rw [if_neg hk]
        simp only [List.map_cons, List.nodup_cons] at h ⊢
        refine ⟨?_, ih h.2⟩
        intro hcon
        rcases (bump_mem_fst rest k k0 v).mp hcon with h1 | h1
        · exact h.1 h1
        · exact hk h1

theorem foldl_bump_nodup :
    ∀ (ps m : List (String × Nat)), (m.map Prod.fst).Nodup →
    ((ps.foldl (fun acc p => bump acc p.1 p.2) m).map Prod.fst).Nodup := by
  intro ps
  induction ps with
  | nil => intro m h; exact h
  | cons p rest ih =>
    intro m h
    rw [List.foldl_cons]
    exact ih _ (bump_nodup_fst m p.1 p.2 h)

theorem bump_vals_sum (m : List (String × Nat)) (k : String) (v : Nat) :
    ((bump m k v).map fun p => p.2).sum = ((m.map fun p => p.2).sum) + v := by
  induction m with
  | nil => simp [bump]
  | cons p rest ih =>
    match p with
    | (k0, v0) =>
      rw [bump]
      by_cases hk : k0 = k
      · rw [if_pos hk]
        simp only [List.map_cons, List.sum_cons]
        omega
      · rw [if_neg hk]
        simp only [List.map_cons, List.sum_cons, ih]
        omega

theorem foldl_bump_vals_sum :
    ∀ (ps m : List (String × Nat)),
    ((ps.foldl (fun acc p => bump acc p.1 p.2) m).map fun p => p.2).sum =
      ((m.map fun p => p.2).sum) + ((ps.map fun p => p.2).sum) := by
  intro ps
  induction ps with
  | nil => intro m; simp
  | cons p rest ih =>
    intro m
    rw [List.foldl_cons, ih, bump_vals_sum]
    simp only [List.map_cons, List.sum_cons]
    omega

/-- The folded `Counter` value of a candidate is exactly its direct
cross-state vote sum. -/
theorem national_raw_totals_lookupD (turnout : List (String × List (String × Nat)))
    (c : String) : lookupD (national_raw_totals turnout) c = crossStateSum turnout c := by
  unfold national_raw_totals crossStateSum
  rw [foldl_bump_lookupD]
  simp [lookupD]

/-- The folded `Counter` grand total is exactly the direct grand total. -/
theorem total_votes_national_eq (turnout : List (String × List (String × Nat))) :
    total_votes_national turnout = grandTotal turnout := by
  unfold total_votes_national national_raw_totals grandTotal
  rw [foldl_bump_vals_sum]
  simp

theorem national_raw_totals_nodup (turnout : List (String × List (String × Nat))) :
    ((national_raw_totals turnout).map Prod.fst).Nodup := by
  unfold national_raw_totals
  exact foldl_bump_nodup _ [] (by simp)

theorem national_raw_totals_mem_fst (turnout : List (String × List (String × Nat)))
    (c : String) :
    c ∈ (national_raw_totals turnout).map Prod.fst ↔
      c ∈ (nonTotalPairs turnout).map Prod.fst := by
  unfold national_raw_totals
  rw [foldl_bump_mem_fst]
  simp

theorem lookup_of_mem_nodup :
    ∀ (m : List (String × Nat)), ((m.map Prod.fst).Nodup) →
    ∀ (c : String) (w : Nat), (c, w) ∈ m → m.lookup c = some w := by
  intro m
  induction m with
  | nil => intro _ c w h; simp at h
  | cons p rest ih =>
    intro hnd c w h
    simp only [List.map_cons, List.nodup_cons] at hnd
    rcases List.mem_cons.mp h with h1 | h1
    · rw [← h1]
      simp [List.lookup]
    · have hne : ¬c = p.1 := by
        intro hcon
        apply hnd.1
        have : (c, w).1 ∈ rest.map Prod.fst := List.mem_map_of_mem _ h1
        rw [← hcon]
        exact this
      have hb : (c == p.1) = false := beq_eq_false_iff_ne.mpr hne
      rw [List.lookup, hb]
      exact ih hnd.2 c w h1

/-! ## Seed and loop bookkeeping -/

theorem seedElectors_map_name (ws : List (String × Nat)) (flr : Nat) :
    (seedElectors ws flr).map (fun r => r.name) = ws.map Prod.fst := by
  unfold seedElectors
  simp

theorem seedElectors_counts (ws : List (String × Nat)) (flr : Nat) :
    (seedElectors ws flr).map (fun r => r.count) = List.replicate ws.length flr := by
  unfold seedElectors
  rw [List.map_map]
  exact List.map_const' ws flr

theorem remaining_electors_eq (ws : List (String × Nat)) (flr target : Nat) :
    remaining_electors ws flr target = (target : Int) - (flr : Int) * ws.length := by
  unfold remaining_electors seedElectors
  rw [List.map_map]
  have : (ws.map ((fun r : StRec => (r.count : Int)) ∘
      fun p : String × Nat => { name := p.1, votes := p.2, count := flr })) =
      List.replicate ws.length (flr : Int) := List.map_const' ws (flr : Int)
  rw [this, List.sum_replicate]
  simp [mul_comm]

theorem allocLoop_nv (score : Nat → Nat → Frac) :
    ∀ (k : Nat) (l res : List StRec), allocLoop score k l = some res →
    (res.map fun r => (r.name, r.votes)) = (l.map fun r => (r.name, r.votes)) := by
  intro k
  induction k with
  | zero =>
    intro l res h
    rw [allocLoop, Option.some.injEq] at h
    rw [h]
  | succ k ih =>
    intro l res h
    rw [allocLoop] at h
    cases hstep : allocStep score l with
    | none => rw [hstep] at h; simp at h
    | some l2 =>
      rw [hstep] at h
      simp only [Option.some_bind] at h
      rcases Option.map_eq_some'.mp hstep with ⟨s, _, hl2⟩
      rw [ih l2 res h, ← hl2, incr_map_nv]

theorem slInit_map_name (vote_dict : List (String × Nat)) (eligible : List String) :
    (slInit vote_dict eligible).map (fun r => r.name) =
      (vote_dict.filter fun p => decide (p.1 ∈ eligible)).map Prod.fst := by
  unfold slInit
  simp

theorem slInit_counts (vote_dict : List (String × Nat)) (eligible : List String) :
    ∀ r ∈ slInit vote_dict eligible, r.count = 0 := by
  intro r hr
  rcases List.mem_map.mp hr with ⟨p, _, rfl⟩
  rfl

theorem slInit_nodup (vote_dict : List (String × Nat)) (eligible : List String)
    (h : (vote_dict.map Prod.fst).Nodup) :
    ((slInit vote_dict eligible).map fun r => r.name).Nodup := by
  rw [slInit_map_name]
  exact List.Nodup.sublist (List.Sublist.map _ (List.filter_sublist _)) h

/-! ## Claim theorems -/

/-- Claim C1: the Inter-State Apportioner, seeded with floor = 1 elector per
state, iterates exactly `target_total - floor * num_states` times (the
`remaining_electors` count), each time incrementing the state maximizing
the priority `weight / sqrt(n * (n + 1))`; concretely, with states
A (1,000,000 votes) and B (10,000 votes), floor 1 and target 3, the final
counts are A = 2 and B = 1. -/
theorem C1_interstate_scenario :
    hhApportion [("A", 1000000), ("B", 10000)] 1 3 =
      some [⟨"A", 1000000, 2⟩, ⟨"B", 10000, 1⟩] ∧
    ∀ (ws : List (String × Nat)) (flr target : Nat),
      remaining_electors ws flr target = (target : Int) - (flr : Int) * ws.length :=
  ⟨by decide, remaining_electors_eq⟩

/-- Claim C4: the Intra-State Apportioner awards electors one at a time to
the eligible candidate maximizing `votes / (2a + 1)`; with 5 electors and
candidates X: 600 votes and Y: 400 votes, the result is X = 3, Y = 2. -/
theorem C4_saintelague_scenario :
    apportion_within_state [("X", 600), ("Y", 400)] 5 ["X", "Y"] =
      some [⟨"X", 600, 3⟩, ⟨"Y", 400, 2⟩] ∧
    ∀ v a : Nat, (sl_priority v a).toRat = (v : ℚ) / (2 * a + 1) :=
  ⟨by decide, sl_priority_toRat⟩

/-- Claim C6 counterexample: on a zero national grand total (with a candidate
present) the code raises Python's `ZeroDivisionError` from the share
division itself — not the specification's named `DegenerateInputError`. -/
theorem C6_counterexample :
    eligible_candidates [("S", [("X", 0), ("Total", 0)])] =
      Except.error RunError.zeroDivisionError ∧
    eligible_candidates [("S", [("X", 0), ("Total", 0)])] ≠
      Except.error RunError.degenerateInputError := by
  refine ⟨rfl, ?_⟩
  intro h
  rw [show eligible_candidates [("S", [("X", 0), ("Total", 0)])] =
    Except.error RunError.zeroDivisionError from rfl] at h
  simp at h

/-- Claim C6 amended: when the national grand total is zero and at least one
candidate label is present, the Eligibility Filter aborts the run with the
uncaught division-by-zero error (`ZeroDivisionError`) — it fails before
producing output, but with Python's division error, not an explicit
`DegenerateInputError`. -/
theorem C6_zero_total_divzero (turnout : List (String × List (String × Nat)))
    (h1 : national_raw_totals turnout ≠ []) (h2 : total_votes_national turnout = 0) :
    eligible_candidates turnout = Except.error RunError.zeroDivisionError := by
  unfold eligible_candidates
  rw [if_neg h1, if_pos h2]

theorem C6_zero_total_divzero_witness :
    (national_raw_totals [("S", [("X", 0), ("Total", 0)])] ≠ [] ∧
      total_votes_national [("S", [("X", 0), ("Total", 0)])] = 0) ∧
    eligible_candidates [("S", [("X", 0), ("Total", 0)])] =
      Except.error RunError.zeroDivisionError :=
  ⟨⟨by decide, by decide⟩,
    C6_zero_total_divzero [("S", [("X", 0), ("Total", 0)])] (by decide) (by decide)⟩

/-- Claim C7 counterexample: with two states, floor 1 and target 1 (so
`target_total < floor * num_states`), the Inter-State Apportioner completes
normally with the untouched floor seeding — it raises nothing, and in
particular not `InvalidApportionmentConfig`. -/
theorem C7_counterexample :
    hhApportionRun [("A", 96), ("B", 4)] 1 1 =
      Except.ok [⟨"A", 96, 1⟩, ⟨"B", 4, 1⟩] ∧
    hhApportionRun [("A", 96), ("B", 4)] 1 1 ≠
      Except.error RunError.invalidApportionmentConfig := by
  refine ⟨rfl, ?_⟩
  intro h
  rw [show hhApportionRun [("A", 96), ("B", 4)] 1 1 =
    Except.ok [⟨"A", 96, 1⟩, ⟨"B", 4, 1⟩] from rfl] at h
  simp at h

/-- Claim C7 amended: when `target_total < floor * num_states` the
remaining-elector count is negative, `range` of it is empty, and the loop
body never runs: the apportioner returns the floor-seeded counts unchanged
(their sum is `floor * num_states`, not the target) and raises no error. -/
theorem C7_negative_remaining_noop (ws : List (String × Nat)) (flr target : Nat)
    (h : target < flr * ws.length) :
    hhApportionRun ws flr target = Except.ok (seedElectors ws flr) := by
  have h0 : (remaining_electors ws flr target).toNat = 0 := by
    rw [remaining_electors_eq]
    omega
  unfold hhApportionRun hhApportion
  rw [h0, allocLoop]

theorem C7_negative_remaining_noop_witness :
    (1 < 1 * ([("A", 96), ("B", 4)] : List (String × Nat)).length) ∧
    hhApportionRun [("A", 96), ("B", 4)] 1 1 =
      Except.ok (seedElectors [("A", 96), ("B", 4)] 1) :=
  ⟨by decide, C7_negative_remaining_noop [("A", 96), ("B", 4)] 1 1 (by decide)⟩

/-- Claim C8 counterexample: a state with a zero vote total is not skipped
and causes no error — it is seeded with the floor like every state, so it
ends the run with the positive ElectorCount entry 1, contradicting "a
zero-total state must not end with a positive entry in ElectorCount". -/
theorem C8_counterexample :
    hhApportion [("Z", 0), ("A", 100)] 1 3 =
      some [⟨"Z", 0, 1⟩, ⟨"A", 100, 2⟩] ∧
    (⟨"Z", 0, 1⟩ : StRec).count ≠ 0 :=
  ⟨by decide, by decide⟩

/-- Claim C8 amended: the priority formula never divides by zero (its
divisor is always positive), and a zero-total state has priority 0, so when
any state has a positive total the zero-total state is never selected by the
loop: it ends with exactly the floor seeding of 1 elector — a positive
entry, not the absence of one. -/
theorem C8_zero_state_keeps_floor :
    (∀ (ws : List (String × Nat)) (tot : Nat) (res : List StRec),
      ((ws.map Prod.fst).Nodup) → (∃ p ∈ ws, 0 < p.2) →
      hhApportion ws 1 tot = some res →
      ∀ r ∈ res, r.votes = 0 → r.count = 1) ∧
    (∀ v n : Nat, 0 < (priority v n).den) ∧
    (∀ n : Nat, (priority 0 n).num = 0) := by
  have hden : ∀ v n : Nat, 0 < (priority v n).den := by
    intro v n
    unfold priority
    by_cases h : n = 0
    · rw [if_pos h]
      exact (by decide : (0 : Nat) < 1 * 2)
    · rw [if_neg h]
      exact Nat.mul_pos (Nat.pos_of_ne_zero h) (Nat.succ_pos n)
  have hnum : ∀ v n : Nat, (priority v n).num = 0 ↔ v = 0 := by
    intro v n
    unfold priority
    by_cases h : n = 0
    · rw [if_pos h]
      simp [Nat.mul_eq_zero]
    · rw [if_neg h]
      simp [Nat.mul_eq_zero]
  refine ⟨?_, hden, fun n => (hnum 0 n).mpr rfl⟩
  intro ws tot res hnodup hpos h
  have hseed_nodup : ((seedElectors ws 1).map fun r => r.name).Nodup := by
    rw [seedElectors_map_name]
    exact hnodup
  have hseed_pos : ∃ r ∈ seedElectors ws 1, 0 < r.votes := by
    rcases hpos with ⟨p, hp, hpv⟩
    exact ⟨⟨p.1, p.2, 1⟩, List.mem_map_of_mem _ hp, hpv⟩
  have hseed_frozen : ∀ r ∈ seedElectors ws 1, r.votes = 0 → r.count = 1 := by
    intro r hr _
    rcases List.mem_map.mp hr with ⟨p, _, rfl⟩
    rfl
  exact allocLoop_zero_frozen priority hden hnum _ _ res 1 hseed_nodup hseed_pos
    hseed_frozen h

theorem C8_zero_state_keeps_floor_witness :
    ((([("Z", 0), ("A", 100)] : List (String × Nat)).map Prod.fst).Nodup ∧
      (∃ p ∈ ([("Z", 0), ("A", 100)] : List (String × Nat)), 0 < p.2) ∧
      hhApportion [("Z", 0), ("A", 100)] 1 3 = some [⟨"Z", 0, 1⟩, ⟨"A", 100, 2⟩]) ∧
    (∀ r ∈ [(⟨"Z", 0, 1⟩ : StRec), ⟨"A", 100, 2⟩], r.votes = 0 → r.count = 1) :=
  ⟨⟨by decide, by decide, by decide⟩,
    C8_zero_state_keeps_floor.1 [("Z", 0), ("A", 100)] 3 [⟨"Z", 0, 1⟩, ⟨"A", 100, 2⟩]
      (by decide) (by decide) (by decide)⟩

/-- Claim C2: for any nonempty state list with `floor * num_states ≤ target`
the Inter-State Apportioner succeeds and its elector counts sum exactly to
the configured total (538 by default, see the witness); moreover the
pipeline's final elector mapping is exactly the apportioner's output, so the
sum holds for the rest of the run — nothing downstream modifies it. -/
theorem C2_elector_sum :
    (∀ (ws : List (String × Nat)) (flr target : Nat), ws ≠ [] →
      flr * ws.length ≤ target →
      ∃ res, hhApportion ws flr target = some res ∧
        ((res.map fun r => r.count).sum = target)) ∧
    (∀ (turnout : List (String × List (String × Nat))) (tot flr : Nat) (r : RunResult),
      runPipeline turnout tot flr = Except.ok r →
      ∃ ws, weightsOf turnout = Except.ok ws ∧ hhApportion ws flr tot = some r.electors) := by
  constructor
  · intro ws flr target hne hle
    have hseed_ne : seedElectors ws flr ≠ [] := by
      unfold seedElectors
      simpa using hne
    have hseed_sum : ((seedElectors ws flr).map fun r => r.count).sum = flr * ws.length := by
      rw [seedElectors_counts, List.sum_const_nat]
      exact Nat.mul_comm _ _
    have hk : (remaining_electors ws flr target).toNat = target - flr * ws.length := by
      rw [remaining_electors_eq]
      omega
    rcases allocLoop_basic priority ((remaining_electors ws flr target).toNat)
      (seedElectors ws flr) hseed_ne with ⟨res, hres, _, hsum⟩
    refine ⟨res, hres, ?_⟩
    rw [hsum, hseed_sum, hk]
    omega
  · intro turnout tot flr r h
    unfold runPipeline at h
    split at h
    · simp at h
    · split at h
      · simp at h
      · rename_i elig _ ws h2
        split at h
        · simp at h
        · rename_i el h3
          split at h
          · simp at h
          · simp only [Except.ok.injEq] at h
            exact ⟨ws, h2, by rw [h3, ← h]⟩

theorem C2_elector_sum_witness :
    (([("A", 5)] : List (String × Nat)) ≠ [] ∧ 1 * 1 ≤ 538 ∧
      (∃ res, hhApportion [("A", 5)] 1 538 = some res ∧
        ((res.map fun r => r.count).sum = 538))) ∧
    (runPipeline [("S", [("X", 10), ("Total", 10)])] 3 1 =
      Except.ok ⟨["X"], [⟨"S", 10, 3⟩], [("S", [⟨"X", 10, 3⟩])], [("X", 3)]⟩ ∧
      (∃ ws, weightsOf [("S", [("X", 10), ("Total", 10)])] = Except.ok ws ∧
        hhApportion ws 1 3 =
          some (RunResult.electors ⟨["X"], [⟨"S", 10, 3⟩], [("S", [⟨"X", 10, 3⟩])],
            [("X", 3)]⟩))) :=
  ⟨⟨by decide, by decide, C2_elector_sum.1 [("A", 5)] 1 538 (by decide) (by decide)⟩,
    ⟨rfl, C2_elector_sum.2 [("S", [("X", 10), ("Total", 10)])] 3 1
      ⟨["X"], [⟨"S", 10, 3⟩], [("S", [⟨"X", 10, 3⟩])], [("X", 3)]⟩ rfl⟩⟩

/-- Claim C3 counterexample: in the run on two states where state "S2"
(tally `{W: 4, Total: 4}`) has no label in the eligible set `{X}`, the
pipeline gives "S2" the ElectorCount entry 1 but its StateAllocation is the
empty mapping, whose values sum to 0, not 1 — the claimed equality fails for
a state whose tally has empty intersection with the eligible set. -/
theorem C3_counterexample :
    runPipeline [("S1", [("X", 96), ("Total", 96)]), ("S2", [("W", 4), ("Total", 4)])] 3 1 =
      Except.ok ⟨["X"], [⟨"S1", 96, 2⟩, ⟨"S2", 4, 1⟩],
        [("S1", [⟨"X", 96, 2⟩]), ("S2", [])], [("X", 2)]⟩ ∧
    (([] : List StRec).map fun r => r.count).sum ≠ (⟨"S2", 4, 1⟩ : StRec).count :=
  ⟨rfl, by decide⟩

/-- Claim C3 amended: for every state whose vote tally contains at least one
eligible label, the Intra-State Apportioner's allocation values sum exactly
to that state's elector count; for a state whose tally has empty
intersection with the eligible set it returns the empty allocation (sum 0),
which is smaller than that state's ElectorCount of at least the floor 1. -/
theorem C3_intrastate_sum :
    (∀ (vote_dict : List (String × Nat)) (electors : Nat) (eligible : List String),
      (∃ p ∈ vote_dict, p.1 ∈ eligible) →
      ∃ res, apportion_within_state vote_dict electors eligible = some res ∧
        ((res.map fun r => r.count).sum = electors)) ∧
    (∀ (vote_dict : List (String × Nat)) (electors : Nat) (eligible : List String),
      (∀ p ∈ vote_dict, p.1 ∉ eligible) →
      apportion_within_state vote_dict electors eligible = some []) := by
  constructor
  · intro vote_dict electors eligible hmem
    rcases hmem with ⟨p, hp, hpe⟩
    have hinit_mem : (⟨p.1, p.2, 0⟩ : StRec) ∈ slInit vote_dict eligible := by
      unfold slInit
      exact List.mem_map_of_mem _ (List.mem_filter.mpr ⟨hp, decide_eq_true hpe⟩)
    have hinit_ne : slInit vote_dict eligible ≠ [] := List.ne_nil_of_mem hinit_mem
    have hinit_sum : ((slInit vote_dict eligible).map fun r => r.count).sum = 0 := by
      have : ((slInit vote_dict eligible).map fun r => r.count) =
          List.replicate (slInit vote_dict eligible).length 0 := by
        apply List.eq_replicate_iff.mpr
        refine ⟨by simp, ?_⟩
        intro b hb
        rcases List.mem_map.mp hb with ⟨r, hr, rfl⟩
        exact slInit_counts vote_dict eligible r hr
      rw [this, List.sum_const_nat]
      omega
    rcases allocLoop_basic sl_priority electors (slInit vote_dict eligible) hinit_ne with
      ⟨res, hres, _, hsum⟩
    refine ⟨res, ?_, ?_⟩
    · unfold apportion_within_state
      rw [if_neg hinit_ne]
      exact hres
    · rw [hsum, hinit_sum]
      omega
  · intro vote_dict electors eligible hnone
    have hinit : slInit vote_dict eligible = [] := by
      unfold slInit
      rw [List.filter_eq_nil_iff.mpr ?_]
      · rfl
      · intro p hp
        simpa using hnone p hp
    unfold apportion_within_state
    rw [if_pos hinit]

theorem C3_intrastate_sum_witness :
    ((∃ p ∈ ([("X", 600), ("Y", 400)] : List (String × Nat)), p.1 ∈ ["X", "Y"]) ∧
      (∃ res, apportion_within_state [("X", 600), ("Y", 400)] 5 ["X", "Y"] = some res ∧
        ((res.map fun r => r.count).sum = 5))) ∧
    ((∀ p ∈ ([("Z", 100)] : List (String × Nat)), p.1 ∉ (["X"] : List String)) ∧
      apportion_within_state [("Z", 100)] 1 ["X"] = some []) :=
  ⟨⟨by decide, C3_intrastate_sum.1 [("X", 600), ("Y", 400)] 5 ["X", "Y"] (by decide)⟩,
    ⟨by decide, C3_intrastate_sum.2 [("Z", 100)] 1 ["X"] (by decide)⟩⟩

/-- Claim C9: in a state where some eligible candidate has a positive vote
count, every eligible candidate with zero votes keeps allocation 0 through
the whole Sainte-Lague run (its priority is 0 while the maximum stays
positive); and the fully degenerate all-zero-votes state completes without
error, the tie-break handing every elector to the first eligible candidate. -/
theorem C9_zero_vote_candidate :
    (∀ (vote_dict : List (String × Nat)) (electors : Nat) (eligible : List String)
      (res : List StRec),
      ((vote_dict.map Prod.fst).Nodup) →
      (∃ p ∈ vote_dict, p.1 ∈ eligible ∧ 0 < p.2) →
      apportion_within_state vote_dict electors eligible = some res →
      ∀ r ∈ res, r.votes = 0 → r.count = 0) ∧
    apportion_within_state [("P", 0), ("Q", 0)] 3 ["P", "Q"] =
      some [⟨"P", 0, 3⟩, ⟨"Q", 0, 0⟩] := by
  constructor
  · intro vote_dict electors eligible res hnodup hmem happ
    rcases hmem with ⟨p, hp, hpe, hpv⟩
    have hinit_mem : (⟨p.1, p.2, 0⟩ : StRec) ∈ slInit vote_dict eligible := by
      unfold slInit
      exact List.mem_map_of_mem _ (List.mem_filter.mpr ⟨hp, decide_eq_true hpe⟩)
    have hinit_ne : slInit vote_dict eligible ≠ [] := List.ne_nil_of_mem hinit_mem
    have happ2 : allocLoop sl_priority electors (slInit vote_dict eligible) = some res := by
      unfold apportion_within_state at happ
      rwa [if_neg hinit_ne] at happ
    have hden : ∀ v n : Nat, 0 < (sl_priority v n).den := by
      intro v n
      show 0 < 2 * n + 1
      omega
    have hnum : ∀ v n : Nat, (sl_priority v n).num = 0 ↔ v = 0 := by
      intro v n
      unfold sl_priority
      exact Iff.rfl
    exact allocLoop_zero_frozen sl_priority hden hnum electors _ res 0
      (slInit_nodup vote_dict eligible hnodup)
      ⟨⟨p.1, p.2, 0⟩, hinit_mem, hpv⟩
      (fun r hr _ => slInit_counts vote_dict eligible r hr) happ2
  · decide

theorem C9_zero_vote_candidate_witness :
    ((([("X", 600), ("Z", 0)] : List (String × Nat)).map Prod.fst).Nodup ∧
      (∃ p ∈ ([("X", 600), ("Z", 0)] : List (String × Nat)),
        p.1 ∈ ["X", "Z"] ∧ 0 < p.2) ∧
      apportion_within_state [("X", 600), ("Z", 0)] 4 ["X", "Z"] =
        some [⟨"X", 600, 4⟩, ⟨"Z", 0, 0⟩]) ∧
    (∀ r ∈ [(⟨"X", 600, 4⟩ : StRec), ⟨"Z", 0, 0⟩], r.votes = 0 → r.count = 0) :=
  ⟨⟨by decide, by decide, by decide⟩,
    C9_zero_vote_candidate.1 [("X", 600), ("Z", 0)] 4 ["X", "Z"]
      [⟨"X", 600, 4⟩, ⟨"Z", 0, 0⟩] (by decide) (by decide) (by decide)⟩

/-- Claim C10: with the floor seeding of 1, every state's count stays at
least 1 through the whole run, every input state appears in the final
elector mapping (in order), and the `n == 0` guard branch of the priority
function is dead code: running the loop with the guard-free priority yields
the identical result. -/
theorem C10_floor_invariant (ws : List (String × Nat)) (tot : Nat) (res : List StRec)
    (h : hhApportion ws 1 tot = some res) :
    (∀ r ∈ res, 1 ≤ r.count) ∧
    ((res.map fun r => r.name) = ws.map Prod.fst) ∧
    allocLoop priorityNoGuard (remaining_electors ws 1 tot).toNat (seedElectors ws 1) =
      some res := by
  have hseed1 : ∀ r ∈ seedElectors ws 1, 1 ≤ r.count := by
    intro r hr
    rcases List.mem_map.mp hr with ⟨p, _, rfl⟩
    exact le_refl 1
  have hloop : allocLoop priority (remaining_electors ws 1 tot).toNat
      (seedElectors ws 1) = some res := h
  refine ⟨?_, ?_, ?_⟩
  · exact allocLoop_count_le priority _ _ res 1 hloop hseed1
  · have hnv := allocLoop_nv priority _ _ res hloop
    have := congrArg (List.map Prod.fst) hnv
    simp only [List.map_map] at this
    rw [show ((fun p : String × Nat => p.1) ∘ fun r : StRec => (r.name, r.votes)) =
      fun r : StRec => r.name from rfl] at this
    rw [this, ← seedElectors_map_name ws 1]
  · have hfg : ∀ v n : Nat, 1 ≤ n → priority v n = priorityNoGuard v n := by
      intro v n hn
      unfold priority priorityNoGuard
      rw [if_neg (by omega)]
    rw [← allocLoop_congr priority priorityNoGuard hfg
      ((remaining_electors ws 1 tot).toNat) (seedElectors ws 1) hseed1]
    exact hloop

theorem C10_floor_invariant_witness :
    hhApportion [("A", 7), ("B", 3)] 1 3 = some [⟨"A", 7, 2⟩, ⟨"B", 3, 1⟩] ∧
    ((∀ r ∈ [(⟨"A", 7, 2⟩ : StRec), ⟨"B", 3, 1⟩], 1 ≤ r.count) ∧
      (([(⟨"A", 7, 2⟩ : StRec), ⟨"B", 3, 1⟩].map fun r => r.name) =
        ([("A", 7), ("B", 3)] : List (String × Nat)).map Prod.fst) ∧
      allocLoop priorityNoGuard (remaining_electors [("A", 7), ("B", 3)] 1 3).toNat
        (seedElectors [("A", 7), ("B", 3)] 1) = some [⟨"A", 7, 2⟩, ⟨"B", 3, 1⟩]) :=
  ⟨by decide, C10_floor_invariant [("A", 7), ("B", 3)] 3 [⟨"A", 7, 2⟩, ⟨"B", 3, 1⟩]
    (by decide)⟩

/-- Claim C5: with a positive national grand total, the Eligibility Filter
succeeds and returns exactly the labels — the derived "Total" field excluded
— whose cross-state vote sum divided by the grand total is at least the
threshold 1/20, ties at the threshold included and strictly smaller shares
excluded; on national totals X = 96, Y = 4 with threshold 0.05 the result is
exactly {X}. -/
theorem C5_eligibility_filter :
    (∀ turnout : List (String × List (String × Nat)), 0 < grandTotal turnout →
      ∃ L, eligible_candidates turnout = Except.ok L ∧
        ∀ c : String, c ∈ L ↔
          ((∃ v, (c, v) ∈ nonTotalPairs turnout) ∧
            (1 : ℚ) / 20 ≤ (crossStateSum turnout c : ℚ) / (grandTotal turnout : ℚ))) ∧
    eligible_candidates [("S", [("X", 96), ("Y", 4), ("Total", 100)])] =
      Except.ok ["X"] := by
  constructor
  · intro t hgt
    have htv : total_votes_national t = grandTotal t := total_votes_national_eq t
    have htv_pos : 0 < total_votes_national t := by rw [htv]; exact hgt
    have htot_ne : national_raw_totals t ≠ [] := by
      intro hcon
      have h2 := htv_pos
      unfold total_votes_national at h2
      rw [hcon] at h2
      simp at h2
    have hL : eligible_candidates t = Except.ok
        (((national_raw_totals t).filter fun p =>
          Frac.ble ⟨1, 20⟩ ⟨p.2, total_votes_national t⟩).map fun p => p.1) := by
      unfold eligible_candidates
      rw [if_neg htot_ne, if_neg (by omega)]
    refine ⟨_, hL, fun c => ?_⟩
    have hnodup := national_raw_totals_nodup t
    have hth : (Frac.toRat ⟨1, 20⟩) = (1 : ℚ) / 20 := by
      unfold Frac.toRat
      norm_num
    constructor
    · intro hc
      rcases List.mem_map.mp hc with ⟨p, hpf, hp1⟩
      rcases List.mem_filter.mp hpf with ⟨hp_mem, hp_pred⟩
      have hp_mem2 : (c, p.2) ∈ national_raw_totals t := by
        rw [← hp1]
        simpa using hp_mem
      constructor
      · have hkey : c ∈ (national_raw_totals t).map Prod.fst := by
          rw [← hp1]
          exact List.mem_map_of_mem _ hp_mem
        rcases List.mem_map.mp ((national_raw_totals_mem_fst t c).mp hkey) with
          ⟨q, hq_mem, hq1⟩
        refine ⟨q.2, ?_⟩
        rw [← hq1]
        simpa using hq_mem
      · have hlook := lookup_of_mem_nodup _ hnodup c p.2 hp_mem2
        have hcross : crossStateSum t c = p.2 := by
          rw [← national_raw_totals_lookupD]
          unfold lookupD
          rw [hlook]
          rfl
        have hb := (Frac.ble_iff_toRat ⟨1, 20⟩ ⟨p.2, total_votes_national t⟩
          (by decide) htv_pos).mp hp_pred
        rw [hth] at hb
        simp only [Frac.toRat] at hb
        rw [hcross, ← htv]
        exact hb
    · rintro ⟨⟨v, hv⟩, hshare⟩
      have hkey : c ∈ (national_raw_totals t).map Prod.fst :=
        (national_raw_totals_mem_fst t c).mpr (List.mem_map_of_mem _ hv)
      rcases List.mem_map.mp hkey with ⟨q, hq_mem, hq1⟩
      have hq_mem2 : (c, q.2) ∈ national_raw_totals t := by
        rw [← hq1]
        simpa using hq_mem
      have hlook := lookup_of_mem_nodup _ hnodup c q.2 hq_mem2
      have hcross : crossStateSum t c = q.2 := by
        rw [← national_raw_totals_lookupD]
        unfold lookupD
        rw [hlook]
        rfl
      have hpred : Frac.ble ⟨1, 20⟩ ⟨q.2, total_votes_national t⟩ = true := by
        rw [Frac.ble_iff_toRat _ _ (by decide) htv_pos, hth]
        simp only [Frac.toRat]
        rw [← hcross, htv]
        exact hshare
      have hq_filter : q ∈ (national_raw_totals t).filter fun p =>
          Frac.ble ⟨1, 20⟩ ⟨p.2, total_votes_national t⟩ :=
        List.mem_filter.mpr ⟨hq_mem, hpred⟩
      rw [← hq1]
      exact List.mem_map_of_mem _ hq_filter
  · rfl

theorem C5_eligibility_filter_witness :
    (0 < grandTotal [("S", [("X", 96), ("Y", 4), ("Total", 100)])]) ∧
    (∃ L, eligible_candidates [("S", [("X", 96), ("Y", 4), ("Total", 100)])] =
        Except.ok L ∧
      ∀ c : String, c ∈ L ↔
        ((∃ v, (c, v) ∈ nonTotalPairs [("S", [("X", 96), ("Y", 4), ("Total", 100)])]) ∧
          (1 : ℚ) / 20 ≤
            (crossStateSum [("S", [("X", 96), ("Y", 4), ("Total", 100)])] c : ℚ) /
              (grandTotal [("S", [("X", 96), ("Y", 4), ("Total", 100)])] : ℚ))) :=
  ⟨by decide, C5_eligibility_filter.1 [("S", [("X", 96), ("Y", 4), ("Total", 100)])]
    (by decide)⟩

end ElectoralCollege
